import Mathlib

/-!
Verification development for `docs/v3/scripts/analyze_snippet_usage_updated.py`.

The Python script builds a dependency graph over JSON-schema "snippet" files,
computes direct and transitive snippet usage, and flags field snippets that are
reached only transitively.  Everything below is a shallow embedding of that
script: JSON documents become an inductive type, `pathlib.Path(...).stem`
becomes a lexical function on strings, Python `dict`s become association
lists (first-match lookup, as dict keys are unique), Python `set`s become
`Finset String`, and the two `while changed` worklist loops become bounded
iteration of a step function, with the bound large enough that the iteration
provably reaches the loop's fixed point (the state at which `changed` stays
`False`).
-/

namespace SnippetAnalysis

abbrev Name := String

/-- Snippet categories used by the script: `"field"`, `"type"`, `"other"`. -/
inductive Cat where
  | field : Cat
  | type : Cat
  | other : Cat
deriving DecidableEq

/-! ## String helpers

`strContainsSub sub s` embeds Python `sub in s`; `strStartsWith p s` embeds
`s.startswith(p)`; `pathStem` embeds `pathlib.Path(s).stem`. -/

/-- Is `nd` a contiguous sublist of the second argument?  (Python `in` on strings.) -/
def subOfList (nd : List Char) : List Char → Bool
  | [] => nd.isEmpty
  | c :: rest => nd.isPrefixOf (c :: rest) || subOfList nd rest

/-- Python `sub in s` for strings. -/
def strContainsSub (sub s : String) : Bool := subOfList sub.data s.data

/-- Python `s.startswith(p)`. -/
def strStartsWith (p s : String) : Bool := p.data.isPrefixOf s.data

/-- Split a character list on a separator, keeping empty chunks. -/
def splitOnChar (sep : Char) : List Char → List (List Char)
  | [] => [[]]
  | c :: rest =>
    match splitOnChar sep rest with
    | [] => if c = sep then [[], []] else [[c]]
    | g :: gs => if c = sep then [] :: g :: gs else (c :: g) :: gs

/-- Index of the last occurrence of `'.'` in a character list (Python `rfind`). -/
def lastDotIdx (cs : List Char) : Option Nat :=
  match (cs.reverse.findIdx? (fun c => c = '.')) with
  | some k => some (cs.length - 1 - k)
  | none => none

/-- `pathlib` stem of a path's final component: drop the suffix `[i:]` when the
last dot index `i` satisfies `0 < i < len - 1`, else keep the name unchanged. -/
def stemOfName (name : String) : String :=
  let cs := name.data
  match lastDotIdx cs with
  | some i => if 0 < i ∧ i < cs.length - 1 then String.mk (cs.take i) else name
  | none => name

/-- Final path component, as `pathlib.Path(s).name`: split on `/`, drop empty
and `"."` components, take the last one (empty when none remain). -/
def pathName (s : String) : String :=
  String.mk ((((splitOnChar '/' s.data).filter (fun c => ¬(c = [] ∨ c = ['.'])))).getLastD [])

/-- `pathlib.Path(s).stem`: the filename stem of the final path component. -/
def pathStem (s : String) : String := stemOfName (pathName s)

/-! ## JSON documents and reference extraction

Embeds `find_snippet_references` (script lines 24–71).  JSON objects keep
their key order; the traversal appends the classification of a `"$ref"`
string value and then recurses into the value, in key order. -/

mutual

/-- A parsed JSON document (`json.load` result). -/
inductive Json where
  | null : Json
  | boolVal : Bool → Json
  | numVal : Int → Json
  | strVal : String → Json
  | arr : JsonArr → Json
  | obj : JsonObj → Json

/-- A JSON array, in element order. -/
inductive JsonArr where
  | nil : JsonArr
  | cons : Json → JsonArr → JsonArr

/-- A JSON object, in key order. -/
inductive JsonObj where
  | nil : JsonObj
  | cons : String → Json → JsonObj → JsonObj

end

/-- Classification of one candidate `$ref` string `value` found in the file at
`filepath` (script lines 29 and 36–61): a snippet reference's name is
`Path(value).stem` and its category comes from `/fields/` / `/types/`
occurring in `value` (first branch) or in `filepath` (relative-reference
branch); a non-reference yields `none`.  Purely lexical — no filesystem. -/
def classifyRefValue (filepath value : String) : Option (Name × Cat) :=
  let is_snippet_file := strContainsSub "snippets" filepath
  if strContainsSub "snippets" value then
    some (pathStem value,
      if strContainsSub "/fields/" value then Cat.field
      else if strContainsSub "/types/" value then Cat.type
      else Cat.other)
  else if is_snippet_file && (strStartsWith "./" value || strStartsWith "../" value) then
    some (pathStem value,
      if strContainsSub "/fields/" filepath then Cat.field
      else if strContainsSub "/types/" filepath then Cat.type
      else Cat.other)
  else none

mutual

/-- `extract_refs` over a JSON value (script lines 31–66).  Produces the
`(snippet, category)` pairs in traversal order; the `location` and raw
`path` fields of the Python record are dropped because no downstream
computation in the analyzed claims reads them. -/
def extractRefs (filepath : String) : Json → List (Name × Cat)
  | Json.arr l => extractRefsArr filepath l
  | Json.obj l => extractRefsObj filepath l
  | _ => []

/-- `extract_refs` over a JSON array: recurse in element order. -/
def extractRefsArr (filepath : String) : JsonArr → List (Name × Cat)
  | JsonArr.nil => []
  | JsonArr.cons j rest => extractRefs filepath j ++ extractRefsArr filepath rest

/-- `extract_refs` over a JSON object: for each key in order, classify a
`"$ref"` string value, then recurse into the value either way. -/
def extractRefsObj (filepath : String) : JsonObj → List (Name × Cat)
  | JsonObj.nil => []
  | JsonObj.cons k v rest =>
    (if k = "$ref" then
      match v with
      | Json.strVal s => (classifyRefValue filepath s).toList
      | _ => []
    else []) ++ extractRefs filepath v ++ extractRefsObj filepath rest

end

/-- `find_snippet_references(schema_content, filepath)` for a successfully
parsed document (the `None` guard lives at the callers, which carry
`Option Json`). -/
def find_snippet_references (filepath : String) (j : Json) : List (Name × Cat) :=
  extractRefs filepath j

/-! ## Dependency graph building

Embeds `build_snippet_dependency_graph` (script lines 73–102).  The three
Python dicts `snippet_deps`, `snippet_files`, `snippet_categories` become
association lists with first-match lookup; `rglob` order becomes the order
of the input file list. -/

/-- First-match association-list lookup: Python `dict` access (keys unique). -/
def lookupKey {α : Type} : List (Name × α) → Name → Option α
  | [], _ => none
  | (k, v) :: rest, n => if k = n then some v else lookupKey rest n

/-- Overwrite the binding of `k` (Python `d[k] = a`). -/
def updateSet {α : Type} : List (Name × α) → Name → α → List (Name × α)
  | [], k, a => [(k, a)]
  | (k', b) :: rest, k, a =>
    if k' = k then (k', a) :: rest else (k', b) :: updateSet rest k a

/-- Add `v` to the set bound to `k` (Python `defaultdict(set)`: `d[k].add(v)`). -/
def updateAdd : List (Name × List Name) → Name → Name → List (Name × List Name)
  | [], k, v => [(k, [v])]
  | (k', l) :: rest, k, v =>
    if k' = k then (k', l.insert v) :: rest else (k', l) :: updateAdd rest k v

/-- Python `snippet_deps.get(n, set())`. -/
def depsGet (G : List (Name × List Name)) (n : Name) : List Name :=
  (lookupKey G n).getD []

/-- Python `snippet_categories.get(n)` (`None` when absent). -/
def catsGet (cats : List (Name × Cat)) (n : Name) : Option Cat :=
  lookupKey cats n

/-- Path-derived snippet category (script lines 87–93). -/
def pathCategory (p : String) : Cat :=
  if strContainsSub "/fields/" p then Cat.field
  else if strContainsSub "/types/" p then Cat.type
  else Cat.other

/-- The three maps accumulated by `build_snippet_dependency_graph`. -/
structure GraphAcc where
  deps : List (Name × List Name)
  files : List (Name × String)
  cats : List (Name × Cat)

/-- One iteration of the `for snippet_file in snippets_dir.rglob("*.json")`
loop (script lines 83–100): register the stem's file path and path-derived
category, then, when the content loaded (`some`), add one edge per extracted
reference.  A failed load (`none`) adds no edges but keeps the registration. -/
def buildStep (acc : GraphAcc) (file : String × Option Json) : GraphAcc :=
  let stem := pathStem file.1
  let acc1 : GraphAcc :=
    { acc with
      files := updateSet acc.files stem file.1
      cats := updateSet acc.cats stem (pathCategory file.1) }
  match file.2 with
  | none => acc1
  | some j =>
    { acc1 with
      deps := (find_snippet_references file.1 j).foldl
        (fun d r => updateAdd d stem r.1) acc1.deps }

/-- `build_snippet_dependency_graph`, over an explicit list of
`(path, loaded content)` pairs in `rglob` order. -/
def build_snippet_dependency_graph (files : List (String × Option Json)) : GraphAcc :=
  files.foldl buildStep ⟨[], [], []⟩

/-- The key set of `snippet_files` — `all_snippets` in `analyze_schemas`. -/
def snippetKeys (files : List (Name × String)) : Finset Name :=
  (files.map Prod.fst).toFinset

/-! ## The two worklist closures

Embeds `find_transitive_type_usage` (lines 104–126) and
`find_transitive_field_issues` (lines 128–147).  Each `while changed` loop
becomes iteration of a step function on a pair of `Finset`s; one step is one
full pass of the loop body against a snapshot of the current sets.  (The
Python field pass mutates `all_reachable` inside the inner loop; the snapshot
schedule provably reaches the same fixed point — traversal-order independence
is exactly claim C6's content.)  The iteration count `(depsTargets G).card + 1`
exceeds the number of distinct names that can ever be added, so the final
state is the loop's fixed point (`typeStep_fix` / `fieldStep_fix` below). -/

/-- Every name occurring on the right-hand side of an edge: a universe
bounding what any worklist pass can add. -/
def depsTargets (G : List (Name × List Name)) : Finset Name :=
  G.foldr (fun p s => p.2.toFinset ∪ s) ∅

/-- Iterate a step function `n` times. -/
def iterStep {α : Type} (f : α → α) : Nat → α → α
  | 0, st => st
  | n + 1, st => iterStep f n (f st)

/-- One pass of the `find_transitive_type_usage` loop (lines 111–124):
state is `(used_snippets, transitive_types)`; the pass collects every
referenced snippet not yet used whose *declared* category is `type`, and
adds it to both components. -/
def typeStep (G : List (Name × List Name)) (cats : List (Name × Cat))
    (st : Finset Name × Finset Name) : Finset Name × Finset Name :=
  let news := st.1.biUnion (fun u =>
    (depsGet G u).toFinset.filter
      (fun r => r ∉ st.1 ∧ catsGet cats r = some Cat.type))
  (st.1 ∪ news, st.2 ∪ news)

/-- One pass of the `find_transitive_field_issues` loop (lines 136–145):
state is `(all_reachable, transitive_field_issues)`; the pass collects every
referenced snippet not yet reached (no category restriction) and flags the
newly added ones whose declared category is `field` and that are not
directly used. -/
def fieldStep (G : List (Name × List Name)) (cats : List (Name × Cat))
    (direct : Finset Name) (st : Finset Name × Finset Name) :
    Finset Name × Finset Name :=
  let news := st.1.biUnion (fun u =>
    (depsGet G u).toFinset.filter (fun r => r ∉ st.1))
  (st.1 ∪ news,
   st.2 ∪ news.filter (fun r => catsGet cats r = some Cat.field ∧ r ∉ direct))

/-- `find_transitive_type_usage(direct, deps, cats)`: returns
`(used_snippets, transitive_types)`. -/
def find_transitive_type_usage (direct : Finset Name)
    (G : List (Name × List Name)) (cats : List (Name × Cat)) :
    Finset Name × Finset Name :=
  iterStep (typeStep G cats) ((depsTargets G).card + 1) (direct, ∅)

/-- Final state `(all_reachable, transitive_field_issues)` of the
`find_transitive_field_issues` loop. -/
def fieldPassState (direct : Finset Name)
    (G : List (Name × List Name)) (cats : List (Name × Cat)) :
    Finset Name × Finset Name :=
  iterStep (fieldStep G cats direct) ((depsTargets G).card + 1) (direct, ∅)

/-- `find_transitive_field_issues(direct, deps, cats)`. -/
def find_transitive_field_issues (direct : Finset Name)
    (G : List (Name × List Name)) (cats : List (Name × Cat)) : Finset Name :=
  (fieldPassState direct G cats).2

/-- The unrestricted reachable set `all_reachable` computed by the field
pass (its first component). -/
def allReachable (direct : Finset Name)
    (G : List (Name × List Name)) (cats : List (Name × Cat)) : Finset Name :=
  (fieldPassState direct G cats).1

/-- `orphaned_snippets = all_snippets - all_used_snippets` (line 274),
with `all_used_snippets` the first component of the type-restricted pass. -/
def orphanedOf (files : List (Name × String)) (G : List (Name × List Name))
    (cats : List (Name × Cat)) (direct : Finset Name) : Finset Name :=
  snippetKeys files \ (find_transitive_type_usage direct G cats).1

/-- `direct_used_snippets` from the source-schema scan (lines 233–243):
the union of all extracted reference names over loadable source schemas. -/
def directUsedOf (schemas : List (String × Option Json)) : Finset Name :=
  schemas.foldl (fun s file =>
    match file.2 with
    | none => s
    | some j => s ∪ ((find_snippet_references file.1 j).map Prod.fst).toFinset) ∅

/-- The set-valued core of `analyze_schemas` (lines 193–275):
`(directlyUsed, allUsed, transitiveTypes, transitiveFieldIssues, orphaned)`,
over explicit snippet-file and source-schema lists. -/
def analyze_schemas (snippetFiles sourceSchemas : List (String × Option Json)) :
    Finset Name × Finset Name × Finset Name × Finset Name × Finset Name :=
  let acc := build_snippet_dependency_graph snippetFiles
  let direct := directUsedOf sourceSchemas
  let used := find_transitive_type_usage direct acc.deps acc.cats
  let issues := find_transitive_field_issues direct acc.deps acc.cats
  (direct, used.1, used.2, issues, snippetKeys acc.files \ used.1)

/-! ## Generic worklist lemmas

The two loops stop when a full pass adds nothing.  We show that iterating a
pass whose additions are (i) monotone on the first component, (ii) drawn from
a fixed finite universe `T`, and (iii) empty only when the whole state is
fixed, for `T.card + 1` rounds, lands exactly on such a fixed point. -/

/-- A fixed point stays fixed under further iteration. -/
theorem iterStep_of_fix {α : Type} {f : α → α} {st : α} (hf : f st = st) :
    ∀ n : Nat, iterStep f n st = st := by
  intro n
  induction n with
  | zero => rfl
  | succ n ih => show iterStep f n (f st) = st; rw [hf]; exact ih

/-- The first component grows along the iteration. -/
theorem iterStep_subset {f : Finset Name × Finset Name → Finset Name × Finset Name}
    (hmono : ∀ st, st.1 ⊆ (f st).1) :
    ∀ (n : Nat) (st : Finset Name × Finset Name), st.1 ⊆ (iterStep f n st).1 := by
  intro n
  induction n with
  | zero => intro st; exact Finset.Subset.refl _
  | succ n ih => intro st; exact Finset.Subset.trans (hmono st) (ih (f st))

/-- Invariants preserved by the pass hold along the iteration. -/
theorem iterStep_inv {α : Type} {f : α → α} {P : α → Prop}
    (hP : ∀ st, P st → P (f st)) :
    ∀ (n : Nat) (st : α), P st → P (iterStep f n st) := by
  intro n
  induction n with
  | zero => intro st h; exact h
  | succ n ih => intro st h; exact ih (f st) (hP st h)

/-- Each round either is already at a fixed point or has grown the first
component by at least one element per round so far. -/
theorem iterStep_progress {f : Finset Name × Finset Name → Finset Name × Finset Name}
    (hmono : ∀ st, st.1 ⊆ (f st).1)
    (hstop : ∀ st, (f st).1 = st.1 → f st = st) :
    ∀ (n : Nat) (st : Finset Name × Finset Name),
      f (iterStep f n st) = iterStep f n st ∨
        st.1.card + n ≤ (iterStep f n st).1.card := by
  intro n
  induction n with
  | zero => intro st; right; simp [iterStep]
  | succ n ih =>
    intro st
    by_cases h : f st = st
    · left
      have hev : iterStep f (n + 1) st = st := by
        show iterStep f n (f st) = st
        rw [h]; exact iterStep_of_fix h n
      rw [hev, h]
    · have h1 : (f st).1 ≠ st.1 := fun he => h (hstop st he)
      have h2 : st.1 ⊂ (f st).1 :=
        Finset.ssubset_iff_subset_ne.mpr ⟨hmono st, fun he => h1 he.symm⟩
      have h3 : st.1.card < (f st).1.card := Finset.card_lt_card h2
      rcases ih (f st) with hfix | hcard
      · left; exact hfix
      · right
        show st.1.card + (n + 1) ≤ (iterStep f n (f st)).1.card
        omega

/-- The first component never escapes `st.1 ∪ T` when each pass adds only
members of `T`. -/
theorem iterStep_bound {f : Finset Name × Finset Name → Finset Name × Finset Name}
    {T : Finset Name} (hbound : ∀ st, (f st).1 ⊆ st.1 ∪ T) :
    ∀ (n : Nat) (st : Finset Name × Finset Name),
      (iterStep f n st).1 ⊆ st.1 ∪ T := by
  intro n
  induction n with
  | zero => intro st; exact Finset.subset_union_left
  | succ n ih =>
    intro st
    refine Finset.Subset.trans (ih (f st)) ?_
    exact Finset.union_subset
      (Finset.Subset.trans (hbound st) (Finset.Subset.refl _))
      Finset.subset_union_right

/-- After `T.card + 1` rounds the pass adds nothing: the loop's exit state. -/
theorem iterStep_reaches_fix
    {f : Finset Name × Finset Name → Finset Name × Finset Name} {T : Finset Name}
    (hmono : ∀ st, st.1 ⊆ (f st).1)
    (hstop : ∀ st, (f st).1 = st.1 → f st = st)
    (hbound : ∀ st, (f st).1 ⊆ st.1 ∪ T)
    (st0 : Finset Name × Finset Name) :
    f (iterStep f (T.card + 1) st0) = iterStep f (T.card + 1) st0 := by
  rcases iterStep_progress hmono hstop (T.card + 1) st0 with h | h
  · exact h
  · exfalso
    have h1 : (iterStep f (T.card + 1) st0).1.card ≤ (st0.1 ∪ T).card :=
      Finset.card_le_card (iterStep_bound hbound (T.card + 1) st0)
    have h2 : (st0.1 ∪ T).card ≤ st0.1.card + T.card := Finset.card_union_le _ _
    omega

/-! ## Instantiating the worklist lemmas for the two passes -/

/-- Edge targets live in `depsTargets`. -/
theorem mem_depsTargets_of_mem_depsGet {G : List (Name × List Name)} {u r : Name}
    (h : r ∈ depsGet G u) : r ∈ depsTargets G := by
  induction G with
  | nil => simp [depsGet, lookupKey] at h
  | cons p rest ih =>
    obtain ⟨k, l⟩ := p
    simp only [depsTargets, List.foldr_cons, Finset.mem_union]
    by_cases hk : k = u
    · left
      have : depsGet ((k, l) :: rest) u = l := by
        simp [depsGet, lookupKey, hk]
      rw [this] at h
      exact List.mem_toFinset.mpr h
    · right
      apply ih
      have : depsGet ((k, l) :: rest) u = depsGet rest u := by
        simp [depsGet, lookupKey, hk]
      rwa [this] at h

theorem typeStep_mono (G : List (Name × List Name)) (cats : List (Name × Cat))
    (st : Finset Name × Finset Name) : st.1 ⊆ (typeStep G cats st).1 :=
  Finset.subset_union_left

theorem typeStep_bound (G : List (Name × List Name)) (cats : List (Name × Cat))
    (st : Finset Name × Finset Name) :
    (typeStep G cats st).1 ⊆ st.1 ∪ depsTargets G := by
  apply Finset.union_subset Finset.subset_union_left
  intro r hr
  apply Finset.mem_union_right
  obtain ⟨u, _, hf⟩ := Finset.mem_biUnion.mp hr
  exact mem_depsTargets_of_mem_depsGet (List.mem_toFinset.mp (Finset.mem_filter.mp hf).1)

theorem typeStep_stop (G : List (Name × List Name)) (cats : List (Name × Cat))
    (st : Finset Name × Finset Name) (h : (typeStep G cats st).1 = st.1) :
    typeStep G cats st = st := by
  have hnews : (st.1.biUnion (fun u =>
      (depsGet G u).toFinset.filter
        (fun r => r ∉ st.1 ∧ catsGet cats r = some Cat.type))) = ∅ := by
    apply Finset.eq_empty_iff_forall_not_mem.mpr
    intro r hr
    obtain ⟨u, _, hf⟩ := Finset.mem_biUnion.mp hr
    have hnot : r ∉ st.1 := (Finset.mem_filter.mp hf).2.1
    apply hnot
    rw [← h]
    exact Finset.mem_union_right _ hr
  show (st.1 ∪ _, st.2 ∪ _) = st
  rw [hnews]
  simp

theorem fieldStep_mono (G : List (Name × List Name)) (cats : List (Name × Cat))
    (direct : Finset Name) (st : Finset Name × Finset Name) :
    st.1 ⊆ (fieldStep G cats direct st).1 :=
  Finset.subset_union_left

theorem fieldStep_bound (G : List (Name × List Name)) (cats : List (Name × Cat))
    (direct : Finset Name) (st : Finset Name × Finset Name) :
    (fieldStep G cats direct st).1 ⊆ st.1 ∪ depsTargets G := by
  apply Finset.union_subset Finset.subset_union_left
  intro r hr
  apply Finset.mem_union_right
  obtain ⟨u, _, hf⟩ := Finset.mem_biUnion.mp hr
  exact mem_depsTargets_of_mem_depsGet (List.mem_toFinset.mp (Finset.mem_filter.mp hf).1)

theorem fieldStep_stop (G : List (Name × List Name)) (cats : List (Name × Cat))
    (direct : Finset Name) (st : Finset Name × Finset Name)
    (h : (fieldStep G cats direct st).1 = st.1) :
    fieldStep G cats direct st = st := by
  have hnews : (st.1.biUnion (fun u =>
      (depsGet G u).toFinset.filter (fun r => r ∉ st.1))) = ∅ := by
    apply Finset.eq_empty_iff_forall_not_mem.mpr
    intro r hr
    obtain ⟨u, _, hf⟩ := Finset.mem_biUnion.mp hr
    have hnot : r ∉ st.1 := (Finset.mem_filter.mp hf).2
    apply hnot
    rw [← h]
    exact Finset.mem_union_right _ hr
  show (st.1 ∪ _, st.2 ∪ _) = st
  rw [hnews]
  simp

/-- The type-restricted pass exits: one more pass over its result changes
nothing (the Python loop's `changed` stays `False`). -/
theorem typeStep_fix (G : List (Name × List Name)) (cats : List (Name × Cat))
    (direct : Finset Name) :
    typeStep G cats (find_transitive_type_usage direct G cats) =
      find_transitive_type_usage direct G cats :=
  iterStep_reaches_fix (typeStep_mono G cats) (typeStep_stop G cats)
    (typeStep_bound G cats) (direct, ∅)

/-- The unrestricted pass exits likewise. -/
theorem fieldStep_fix (G : List (Name × List Name)) (cats : List (Name × Cat))
    (direct : Finset Name) :
    fieldStep G cats direct (fieldPassState direct G cats) =
      fieldPassState direct G cats :=
  iterStep_reaches_fix (fieldStep_mono G cats direct) (fieldStep_stop G cats direct)
    (fieldStep_bound G cats direct) (direct, ∅)

/-! ## Order-free characterizations of the two passes -/

/-- Derivable membership in the type-restricted closure: start anywhere in
`directlyUsed`; every transitive step lands on a snippet whose *declared*
category is `type`, so every node of a derivation chain after its start in
`directlyUsed` is a type snippet already added. -/
inductive TypeReach (G : List (Name × List Name)) (cats : List (Name × Cat))
    (direct : Finset Name) : Name → Prop where
  | base {n : Name} : n ∈ direct → TypeReach G cats direct n
  | step {u r : Name} : TypeReach G cats direct u → r ∈ depsGet G u →
      catsGet cats r = some Cat.type → TypeReach G cats direct r

/-- Plain reachability from `directlyUsed`, no category restriction. -/
inductive Reach (G : List (Name × List Name)) (direct : Finset Name) :
    Name → Prop where
  | base {n : Name} : n ∈ direct → Reach G direct n
  | step {u r : Name} : Reach G direct u → r ∈ depsGet G u → Reach G direct r

/-- Unfolded shape of one type-restricted pass. -/
theorem typeStep_eq (G : List (Name × List Name)) (cats : List (Name × Cat))
    (st : Finset Name × Finset Name) :
    typeStep G cats st =
      (st.1 ∪ st.1.biUnion (fun u =>
        (depsGet G u).toFinset.filter
          (fun r => r ∉ st.1 ∧ catsGet cats r = some Cat.type)),
       st.2 ∪ st.1.biUnion (fun u =>
        (depsGet G u).toFinset.filter
          (fun r => r ∉ st.1 ∧ catsGet cats r = some Cat.type))) := rfl

/-- Unfolded shape of one unrestricted pass. -/
theorem fieldStep_eq (G : List (Name × List Name)) (cats : List (Name × Cat))
    (direct : Finset Name) (st : Finset Name × Finset Name) :
    fieldStep G cats direct st =
      (st.1 ∪ st.1.biUnion (fun u =>
        (depsGet G u).toFinset.filter (fun r => r ∉ st.1)),
       st.2 ∪ (st.1.biUnion (fun u =>
        (depsGet G u).toFinset.filter (fun r => r ∉ st.1))).filter
          (fun r => catsGet cats r = some Cat.field ∧ r ∉ direct)) := rfl

/-- One type-restricted pass only adds `TypeReach`-derivable names. -/
theorem typeStep_inv_reach (G : List (Name × List Name)) (cats : List (Name × Cat))
    (direct : Finset Name) (st : Finset Name × Finset Name)
    (hst : ∀ m ∈ st.1, TypeReach G cats direct m) :
    ∀ m ∈ (typeStep G cats st).1, TypeReach G cats direct m := by
  intro m hm
  rw [typeStep_eq] at hm
  rcases Finset.mem_union.mp hm with h | h
  · exact hst m h
  · obtain ⟨u, hu, hf⟩ := Finset.mem_biUnion.mp h
    obtain ⟨hmem, _, hcat⟩ := Finset.mem_filter.mp hf
    exact TypeReach.step (hst u hu) (List.mem_toFinset.mp hmem) hcat

/-- `used_snippets` returned by the type-restricted pass is exactly the set
of `TypeReach`-derivable names. -/
theorem mem_type_usage_iff (G : List (Name × List Name)) (cats : List (Name × Cat))
    (direct : Finset Name) (n : Name) :
    n ∈ (find_transitive_type_usage direct G cats).1 ↔
      TypeReach G cats direct n := by
  constructor
  · intro hn
    have hinv := iterStep_inv
      (f := typeStep G cats)
      (P := fun st : Finset Name × Finset Name =>
        ∀ m ∈ st.1, TypeReach G cats direct m)
      (typeStep_inv_reach G cats direct)
      ((depsTargets G).card + 1) (direct, ∅)
      (fun m hm => TypeReach.base hm)
    exact hinv n hn
  · intro hr
    induction hr with
    | base h =>
      exact iterStep_subset (typeStep_mono G cats) _ (direct, ∅) h
    | @step u r hu hedge hcat ih =>
      by_cases hmem : r ∈ (find_transitive_type_usage direct G cats).1
      · exact hmem
      · have hmem2 : r ∈ (typeStep G cats (find_transitive_type_usage direct G cats)).1 := by
          rw [typeStep_eq]
          exact Finset.mem_union_right _ (Finset.mem_biUnion.mpr
            ⟨_, ih, Finset.mem_filter.mpr
              ⟨List.mem_toFinset.mpr hedge, hmem, hcat⟩⟩)
        rw [typeStep_fix G cats direct] at hmem2
        exact hmem2

/-- `transitive_types` is `used_snippets` minus the starting set: elements
are added to both sets together, and only when not yet used. -/
theorem snd_type_usage (G : List (Name × List Name)) (cats : List (Name × Cat))
    (direct : Finset Name) :
    (find_transitive_type_usage direct G cats).2 =
      (find_transitive_type_usage direct G cats).1 \ direct := by
  have hstep : ∀ st : Finset Name × Finset Name,
      direct ⊆ st.1 ∧ st.2 = st.1 \ direct →
      direct ⊆ (typeStep G cats st).1 ∧
        (typeStep G cats st).2 = (typeStep G cats st).1 \ direct := by
    intro st hst
    obtain ⟨hd, he⟩ := hst
    rw [typeStep_eq]
    refine ⟨Finset.Subset.trans hd Finset.subset_union_left, ?_⟩
    apply Finset.ext
    intro m
    simp only [Finset.mem_union, Finset.mem_sdiff, he]
    constructor
    · rintro (⟨hm1, hm2⟩ | hm)
      · exact ⟨Or.inl hm1, hm2⟩
      · obtain ⟨u, hu, hf⟩ := Finset.mem_biUnion.mp hm
        have hnot : m ∉ st.1 := (Finset.mem_filter.mp hf).2.1
        exact ⟨Or.inr hm, fun hdm => hnot (hd hdm)⟩
    · rintro ⟨hm1 | hm1, hm2⟩
      · exact Or.inl ⟨hm1, hm2⟩
      · exact Or.inr hm1
  have hinv := iterStep_inv
    (f := typeStep G cats)
    (P := fun st : Finset Name × Finset Name =>
      direct ⊆ st.1 ∧ st.2 = st.1 \ direct)
    hstep ((depsTargets G).card + 1) (direct, ∅)
    ⟨Finset.Subset.refl _, (Finset.sdiff_self direct).symm⟩
  exact hinv.2

/-- `all_reachable` computed by the field pass is exactly plain
reachability. -/
theorem mem_allReachable_iff (G : List (Name × List Name)) (cats : List (Name × Cat))
    (direct : Finset Name) (n : Name) :
    n ∈ allReachable direct G cats ↔ Reach G direct n := by
  constructor
  · intro hn
    have hstep : ∀ st : Finset Name × Finset Name,
        (∀ m ∈ st.1, Reach G direct m) →
        ∀ m ∈ (fieldStep G cats direct st).1, Reach G direct m := by
      intro st hst m hm
      rw [fieldStep_eq] at hm
      rcases Finset.mem_union.mp hm with h | h
      · exact hst m h
      · obtain ⟨u, hu, hf⟩ := Finset.mem_biUnion.mp h
        have hmem := (Finset.mem_filter.mp hf).1
        exact Reach.step (hst u hu) (List.mem_toFinset.mp hmem)
    have hinv := iterStep_inv
      (f := fieldStep G cats direct)
      (P := fun st : Finset Name × Finset Name => ∀ m ∈ st.1, Reach G direct m)
      hstep ((depsTargets G).card + 1) (direct, ∅)
      (fun m hm => Reach.base hm)
    exact hinv n hn
  · intro hr
    induction hr with
    | base h =>
      exact iterStep_subset (fieldStep_mono G cats direct) _ (direct, ∅) h
    | @step u r hu hedge ih =>
      by_cases hmem : r ∈ allReachable direct G cats
      · exact hmem
      · have hmem2 : r ∈ (fieldStep G cats direct (fieldPassState direct G cats)).1 := by
          rw [fieldStep_eq]
          exact Finset.mem_union_right _ (Finset.mem_biUnion.mpr
            ⟨_, ih, Finset.mem_filter.mpr ⟨List.mem_toFinset.mpr hedge, hmem⟩⟩)
        rw [fieldStep_fix G cats direct] at hmem2
        exact hmem2

/-- `transitive_field_issues` is the reachable set filtered to field-category
names outside `directlyUsed`: each reachable name beyond the start is added
exactly once and flagged at that moment under exactly this condition. -/
theorem issues_eq_filter (G : List (Name × List Name)) (cats : List (Name × Cat))
    (direct : Finset Name) :
    find_transitive_field_issues direct G cats =
      (allReachable direct G cats).filter
        (fun r => catsGet cats r = some Cat.field ∧ r ∉ direct) := by
  have hstep : ∀ st : Finset Name × Finset Name,
      st.2 = st.1.filter (fun r => catsGet cats r = some Cat.field ∧ r ∉ direct) →
      (fieldStep G cats direct st).2 =
        (fieldStep G cats direct st).1.filter
          (fun r => catsGet cats r = some Cat.field ∧ r ∉ direct) := by
    intro st hst
    rw [fieldStep_eq]
    show st.2 ∪ _ = Finset.filter _ (st.1 ∪ _)
    rw [Finset.filter_union, hst]
  have hinit : ((direct, ∅) : Finset Name × Finset Name).2 =
      ((direct, ∅) : Finset Name × Finset Name).1.filter
        (fun r => catsGet cats r = some Cat.field ∧ r ∉ direct) := by
    show (∅ : Finset Name) = direct.filter _
    apply Eq.symm
    apply Finset.eq_empty_iff_forall_not_mem.mpr
    intro r hr
    exact (Finset.mem_filter.mp hr).2.2 (Finset.mem_filter.mp hr).1
  have hinv := iterStep_inv
    (f := fieldStep G cats direct)
    (P := fun st : Finset Name × Finset Name =>
      st.2 = st.1.filter (fun r => catsGet cats r = some Cat.field ∧ r ∉ direct))
    hstep ((depsTargets G).card + 1) (direct, ∅) hinit
  exact hinv

/-- Membership form of `issues_eq_filter`. -/
theorem mem_issues_iff (G : List (Name × List Name)) (cats : List (Name × Cat))
    (direct : Finset Name) (n : Name) :
    n ∈ find_transitive_field_issues direct G cats ↔
      Reach G direct n ∧ catsGet cats n = some Cat.field ∧ n ∉ direct := by
  rw [issues_eq_filter, Finset.mem_filter, mem_allReachable_iff]

/-- A name in the type-restricted closure is directly used or has declared
category `type` (inspecting the last derivation step). -/
theorem typeReach_direct_or_type {G : List (Name × List Name)}
    {cats : List (Name × Cat)} {direct : Finset Name} {n : Name}
    (h : TypeReach G cats direct n) :
    n ∈ direct ∨ catsGet cats n = some Cat.type := by
  cases h with
  | base h => exact Or.inl h
  | step _ _ hcat => exact Or.inr hcat

/-- `TypeReach` only reads the graph through `depsGet`-membership and the
category map through `catsGet`. -/
theorem typeReach_congr {G1 G2 : List (Name × List Name)}
    {cats1 cats2 : List (Name × Cat)} {direct : Finset Name} {n : Name}
    (hG : ∀ u r, r ∈ depsGet G1 u ↔ r ∈ depsGet G2 u)
    (hc : ∀ m, catsGet cats1 m = catsGet cats2 m)
    (h : TypeReach G1 cats1 direct n) : TypeReach G2 cats2 direct n := by
  induction h with
  | base h => exact TypeReach.base h
  | step _ hedge hcat ih =>
    exact TypeReach.step ih ((hG _ _).mp hedge) ((hc _) ▸ hcat)

/-- `Reach` only reads the graph through `depsGet`-membership. -/
theorem reach_congr {G1 G2 : List (Name × List Name)} {direct : Finset Name}
    {n : Name} (hG : ∀ u r, r ∈ depsGet G1 u ↔ r ∈ depsGet G2 u)
    (h : Reach G1 direct n) : Reach G2 direct n := by
  induction h with
  | base h => exact Reach.base h
  | step _ hedge ih => exact Reach.step ih ((hG _ _).mp hedge)

/-! ## Association-list lemmas for the graph builder -/

/-- `updateSet` overwrites: lookup afterwards sees the new binding at `k`
and is unchanged elsewhere. -/
theorem lookupKey_updateSet {α : Type} (m : List (Name × α)) (k : Name) (a : α)
    (n : Name) :
    lookupKey (updateSet m k a) n = if k = n then some a else lookupKey m n := by
  induction m with
  | nil => simp [updateSet, lookupKey]
  | cons p rest ih =>
    obtain ⟨k', b⟩ := p
    by_cases h1 : k' = k
    · subst h1
      by_cases h2 : k' = n <;> simp [updateSet, lookupKey, h2]
    · by_cases h2 : k' = n
      · subst h2
        have h3 : ¬(k = k') := fun he => h1 he.symm
        simp [updateSet, lookupKey, h1, h3]
      · simp [updateSet, lookupKey, h1, h2, ih]

/-- The key set after an `updateSet` gains exactly `k`. -/
theorem snippetKeys_updateSet (m : List (Name × String)) (k : Name) (a : String) :
    snippetKeys (updateSet m k a) = insert k (snippetKeys m) := by
  induction m with
  | nil => simp [updateSet, snippetKeys]
  | cons p rest ih =>
    obtain ⟨k', b⟩ := p
    by_cases h1 : k' = k
    · subst h1
      simp [updateSet, snippetKeys]
    · simp only [updateSet, if_neg h1, snippetKeys, List.map_cons, List.toFinset_cons]
      rw [show ((updateSet rest k a).map Prod.fst).toFinset = snippetKeys (updateSet rest k a) from rfl]
      rw [ih]
      rw [show ((rest.map Prod.fst).toFinset : Finset Name) = snippetKeys rest from rfl]
      exact Finset.Insert.comm k' k (snippetKeys rest)

/-- `updateAdd` adds `v` to the edge set of `k` and changes nothing else. -/
theorem mem_depsGet_updateAdd (G : List (Name × List Name)) (k v n r : Name) :
    r ∈ depsGet (updateAdd G k v) n ↔
      r ∈ depsGet G n ∨ (n = k ∧ r = v) := by
  induction G with
  | nil =>
    by_cases h : k = n
    · subst h
      simp [updateAdd, depsGet, lookupKey]
    · have h2 : ¬(n = k) := fun he => h he.symm
      simp [updateAdd, depsGet, lookupKey, h, h2]
  | cons p rest ih =>
    obtain ⟨k', l⟩ := p
    by_cases h1 : k' = k
    · subst h1
      by_cases h2 : k' = n
      · subst h2
        simp only [updateAdd, if_pos rfl, depsGet, lookupKey]
        simp [List.mem_insert_iff]
        tauto
      · have h3 : ¬(n = k') := fun he => h2 he.symm
        simp [updateAdd, depsGet, lookupKey, h2, h3]
    · by_cases h2 : k' = n
      · have h3 : ¬(n = k) := fun he => h1 (h2.trans he)
        simp [updateAdd, depsGet, lookupKey, h1, h2, h3]
      · simp only [updateAdd, if_neg h1, depsGet, lookupKey, if_neg h2,
          Option.getD] at ih ⊢
        exact ih

/-- Folding `updateAdd` over a reference list unions in its names at `k`. -/
theorem mem_depsGet_foldlAdd (refs : List (Name × Cat)) (G : List (Name × List Name))
    (k n r : Name) :
    r ∈ depsGet (refs.foldl (fun d x => updateAdd d k x.1) G) n ↔
      r ∈ depsGet G n ∨ (n = k ∧ r ∈ refs.map Prod.fst) := by
  induction refs generalizing G with
  | nil => simp
  | cons x rest ih =>
    simp only [List.foldl_cons, List.map_cons, List.mem_cons]
    rw [ih, mem_depsGet_updateAdd]
    tauto

/-- The names recorded from one file's content: none when the load failed. -/
def refNames (p : String) (c : Option Json) : List Name :=
  match c with
  | none => []
  | some j => (find_snippet_references p j).map Prod.fst

/-- `buildStep` always registers the file path under the stem. -/
theorem buildStep_files (acc : GraphAcc) (f : String × Option Json) :
    (buildStep acc f).files = updateSet acc.files (pathStem f.1) f.1 := by
  obtain ⟨p, c⟩ := f
  cases c <;> rfl

/-- `buildStep` always registers the path-derived category under the stem. -/
theorem buildStep_cats (acc : GraphAcc) (f : String × Option Json) :
    (buildStep acc f).cats = updateSet acc.cats (pathStem f.1) (pathCategory f.1) := by
  obtain ⟨p, c⟩ := f
  cases c <;> rfl

/-- After `buildStep`, the edges out of `n` are the old ones plus, when `n`
is the file's stem, the extracted reference names. -/
theorem mem_depsGet_buildStep (acc : GraphAcc) (f : String × Option Json)
    (n r : Name) :
    r ∈ depsGet (buildStep acc f).deps n ↔
      r ∈ depsGet acc.deps n ∨ (n = pathStem f.1 ∧ r ∈ refNames f.1 f.2) := by
  obtain ⟨p, c⟩ := f
  cases c with
  | none => simp [buildStep, refNames]
  | some j =>
    show r ∈ depsGet ((find_snippet_references p j).foldl
      (fun d x => updateAdd d (pathStem p) x.1) acc.deps) n ↔ _
    rw [mem_depsGet_foldlAdd]
    simp [refNames]

/-! ## Concrete inputs used by witnesses and counterexamples -/

/-- Snippet `A` (type category), referencing `B` by a relative path. -/
def exA : String × Option Json :=
  ("schemas/snippets/types/A.json",
   some (Json.obj (JsonObj.cons "$ref" (Json.strVal "./B.json") JsonObj.nil)))

/-- Snippet `B` (type category), no references. -/
def exB : String × Option Json :=
  ("schemas/snippets/types/B.json", some (Json.obj JsonObj.nil))

/-- Snippet `F` (field category), no references. -/
def exF : String × Option Json :=
  ("schemas/snippets/fields/F.json", some (Json.obj JsonObj.nil))

/-- Snippet `G` (field category), no references. -/
def exG : String × Option Json :=
  ("schemas/snippets/fields/G.json", some (Json.obj JsonObj.nil))

/-- One source schema referencing snippets `A` and `G` directly. -/
def exSchema : String × Option Json :=
  ("schemas/entities/thing.json",
   some (Json.obj
    (JsonObj.cons "a"
      (Json.obj (JsonObj.cons "$ref" (Json.strVal "../snippets/types/A.json") JsonObj.nil))
    (JsonObj.cons "g"
      (Json.obj (JsonObj.cons "$ref" (Json.strVal "../snippets/fields/G.json") JsonObj.nil))
    JsonObj.nil))))

/-- Two-node graph: type `A` references field `F`. -/
def cexDeps : List (Name × List Name) := [("A", ["F"])]

/-- Categories for `cexDeps`: `A` is a type, `F` is a field. -/
def cexCats : List (Name × Cat) := [("A", Cat.type), ("F", Cat.field)]

/-- File registrations for `cexDeps`. -/
def cexFiles : List (Name × String) :=
  [("A", "schemas/snippets/types/A.json"), ("F", "schemas/snippets/fields/F.json")]

/-- Straight-line graph: type `A` references type `B`. -/
def exDeps : List (Name × List Name) := [("A", ["B"]), ("B", [])]

/-- Categories for `exDeps`: both types. -/
def exCats : List (Name × Cat) := [("A", Cat.type), ("B", Cat.type)]

/-- Cyclic graph `A → B → A`. -/
def cycDeps : List (Name × List Name) := [("A", ["B"]), ("B", ["A"])]

/-- Categories for `cycDeps`: both types. -/
def cycCats : List (Name × Cat) := [("A", Cat.type), ("B", Cat.type)]

/-- Graph with a dangling edge: `A` references `ghost`, which has no entry
in the graph and no category. -/
def dngDeps : List (Name × List Name) := [("A", ["ghost"])]

/-- Categories for `dngDeps`: only `A` is registered. -/
def dngCats : List (Name × Cat) := [("A", Cat.type)]

/-! ## The claims -/

/-- C1, as stated, is false on the code: in the graph where type `A`
(directly used) references field `F`, the field `F` is reachable in the
unrestricted pass, is not directly used, is flagged in
`transitiveFieldIssues` — and nevertheless lies in
`orphaned = allSnippets \ allUsed`, because the type-restricted `allUsed`
never admits a field transitively.  The claim asserted `F` would be
excluded from the orphaned set. -/
theorem C1_counterexample :
    catsGet cexCats "F" = some Cat.field ∧
    "F" ∈ allReachable {"A"} cexDeps cexCats ∧
    "F" ∉ ({"A"} : Finset Name) ∧
    "F" ∈ find_transitive_field_issues {"A"} cexDeps cexCats ∧
    "F" ∈ orphanedOf cexFiles cexDeps cexCats {"A"} := by
  refine ⟨by decide, by decide, by decide, by decide, by decide⟩

/-- C1 amended: a field-category snippet reachable from `directlyUsed` in
the unrestricted pass but not directly used is flagged in
`transitiveFieldIssues`, is *not* in the type-restricted `allUsed`, and is
therefore *included* in the orphaned set whenever it is registered among
`allSnippets` — the orphaned set is computed against the type-restricted
`allUsed`, which counts such a field as unused. -/
theorem C1_amended_thm (G : List (Name × List Name)) (cats : List (Name × Cat))
    (files : List (Name × String)) (direct : Finset Name) (n : Name)
    (hfield : catsGet cats n = some Cat.field)
    (hreach : n ∈ allReachable direct G cats)
    (hnd : n ∉ direct) :
    n ∈ find_transitive_field_issues direct G cats ∧
    n ∉ (find_transitive_type_usage direct G cats).1 ∧
    (n ∈ snippetKeys files → n ∈ orphanedOf files G cats direct) := by
  have hR : Reach G direct n := (mem_allReachable_iff G cats direct n).mp hreach
  have hnotUsed : n ∉ (find_transitive_type_usage direct G cats).1 := by
    intro hmem
    have htr := (mem_type_usage_iff G cats direct n).mp hmem
    rcases typeReach_direct_or_type htr with hd | ht
    · exact hnd hd
    · rw [hfield] at ht
      simp at ht
  refine ⟨(mem_issues_iff G cats direct n).mpr ⟨hR, hfield, hnd⟩, hnotUsed, ?_⟩
  intro hk
  exact Finset.mem_sdiff.mpr ⟨hk, hnotUsed⟩

/-- Witness for the amended C1: the concrete field `F` of the
counterexample graph satisfies all three conclusions. -/
theorem C1_witness :
    "F" ∈ find_transitive_field_issues {"A"} cexDeps cexCats ∧
    "F" ∉ (find_transitive_type_usage {"A"} cexDeps cexCats).1 ∧
    ("F" ∈ snippetKeys cexFiles → "F" ∈ orphanedOf cexFiles cexDeps cexCats {"A"}) :=
  C1_amended_thm cexDeps cexCats cexFiles {"A"} "F" (by decide) (by decide) (by decide)

/-- C2: `allUsed` is exactly the `TypeReach` closure — `directlyUsed` plus
the snippets added by derivations every transitive step of which lands on a
declared-`type` snippet (so every intermediate node is in `directlyUsed` or
a type snippet already added); consequently a snippet not declared `type`
is never added transitively, and a type snippet whose only incoming edges
come from non-direct, non-type snippets is never added. -/
theorem C2_thm (G : List (Name × List Name)) (cats : List (Name × Cat))
    (direct : Finset Name) (n : Name) :
    (n ∈ (find_transitive_type_usage direct G cats).1 ↔ TypeReach G cats direct n) ∧
    (n ∈ (find_transitive_type_usage direct G cats).1 → n ∉ direct →
      catsGet cats n = some Cat.type) ∧
    ((∀ u, n ∈ depsGet G u → u ∉ direct ∧ catsGet cats u ≠ some Cat.type) →
      n ∉ direct → n ∉ (find_transitive_type_usage direct G cats).1) := by
  refine ⟨mem_type_usage_iff G cats direct n, ?_, ?_⟩
  · intro hmem hnd
    rcases typeReach_direct_or_type ((mem_type_usage_iff G cats direct n).mp hmem)
      with hd | ht
    · exact absurd hd hnd
    · exact ht
  · intro honly hnd hmem
    have htr := (mem_type_usage_iff G cats direct n).mp hmem
    cases htr with
    | base h => exact hnd h
    | @step u r hu hedge hcat =>
      rcases typeReach_direct_or_type hu with hd | ht
      · exact (honly u hedge).1 hd
      · exact (honly u hedge).2 ht

/-- Witness for C2, second conjunct: in the graph `A → B` with `A` directly
used, the transitively added `B` is indeed declared a type. -/
theorem C2_witness : catsGet exCats "B" = some Cat.type :=
  (C2_thm exDeps exCats {"A"} "B").2.1 (by decide) (by decide)

/-- C3: a field-category snippet reachable in the unrestricted pass and not
directly used appears in `transitiveFieldIssues`; a field that is directly
used never does, whatever its incoming edges. -/
theorem C3_thm (G : List (Name × List Name)) (cats : List (Name × Cat))
    (direct : Finset Name) (n : Name) :
    (catsGet cats n = some Cat.field → n ∈ allReachable direct G cats →
      n ∉ direct → n ∈ find_transitive_field_issues direct G cats) ∧
    (catsGet cats n = some Cat.field → n ∈ direct →
      n ∉ find_transitive_field_issues direct G cats) := by
  constructor
  · intro hf hreach hnd
    exact (mem_issues_iff G cats direct n).mpr
      ⟨(mem_allReachable_iff G cats direct n).mp hreach, hf, hnd⟩
  · intro _ hd hmem
    exact ((mem_issues_iff G cats direct n).mp hmem).2.2 hd

/-- Witness for C3, first conjunct: field `F`, reached only through the
directly used type `A`, is flagged. -/
theorem C3_witness : "F" ∈ find_transitive_field_issues {"A"} cexDeps cexCats :=
  (C3_thm cexDeps cexCats {"A"} "F").1 (by decide) (by decide) (by decide)

/-- C4: for all inputs, `directlyUsed ⊆ allUsed` and
`transitiveFieldIssues ∩ directlyUsed = ∅`. -/
theorem C4_thm (G : List (Name × List Name)) (cats : List (Name × Cat))
    (direct : Finset Name) :
    direct ⊆ (find_transitive_type_usage direct G cats).1 ∧
    find_transitive_field_issues direct G cats ∩ direct = ∅ := by
  constructor
  · exact iterStep_subset (typeStep_mono G cats) _ (direct, ∅)
  · apply Finset.eq_empty_iff_forall_not_mem.mpr
    intro r hr
    obtain ⟨h1, h2⟩ := Finset.mem_inter.mp hr
    exact ((mem_issues_iff G cats direct r).mp h1).2.2 h2

/-- C5: both worklist passes terminate on every finite graph — after the
bounded iteration one further pass changes nothing, which is exactly the
`while changed` exit condition — and, concretely, the cycle `A → B → A`
with only `A` direct yields `{A, B}` in both closures, while a dangling
referenced name (`ghost`, no graph entry, no category) is absorbed without
failure: the embedding's lookups return defaults instead of raising. -/
theorem C5_thm :
    (∀ (G : List (Name × List Name)) (cats : List (Name × Cat))
        (direct : Finset Name),
      typeStep G cats (find_transitive_type_usage direct G cats) =
        find_transitive_type_usage direct G cats ∧
      fieldStep G cats direct (fieldPassState direct G cats) =
        fieldPassState direct G cats) ∧
    (find_transitive_type_usage {"A"} cycDeps cycCats).1 = {"A", "B"} ∧
    allReachable {"A"} cycDeps cycCats = {"A", "B"} ∧
    (find_transitive_type_usage {"A"} dngDeps dngCats).1 = {"A"} ∧
    allReachable {"A"} dngDeps dngCats = {"A", "ghost"} := by
  refine ⟨fun G cats direct => ⟨typeStep_fix G cats direct, fieldStep_fix G cats direct⟩,
    by decide, by decide, by decide, by decide⟩

/-- C6: the result sets depend only on the extensional inputs — membership
of the adjacency sets, the category lookup function, and the starting set —
so any reordering of the graph's entries or adjacency lists (any traversal
order of nodes and edges) and any repeated run produce identical
`allUsed`, `transitiveTypes` and `transitiveFieldIssues`. -/
theorem C6_thm (G1 G2 : List (Name × List Name)) (cats1 cats2 : List (Name × Cat))
    (direct : Finset Name)
    (hG : ∀ u r, r ∈ depsGet G1 u ↔ r ∈ depsGet G2 u)
    (hc : ∀ m, catsGet cats1 m = catsGet cats2 m) :
    (find_transitive_type_usage direct G1 cats1).1 =
      (find_transitive_type_usage direct G2 cats2).1 ∧
    (find_transitive_type_usage direct G1 cats1).2 =
      (find_transitive_type_usage direct G2 cats2).2 ∧
    find_transitive_field_issues direct G1 cats1 =
      find_transitive_field_issues direct G2 cats2 := by
  have hG' : ∀ u r, r ∈ depsGet G2 u ↔ r ∈ depsGet G1 u := fun u r => (hG u r).symm
  have hc' : ∀ m, catsGet cats2 m = catsGet cats1 m := fun m => (hc m).symm
  have hfst : (find_transitive_type_usage direct G1 cats1).1 =
      (find_transitive_type_usage direct G2 cats2).1 := by
    apply Finset.ext
    intro n
    rw [mem_type_usage_iff, mem_type_usage_iff]
    exact ⟨typeReach_congr hG hc, typeReach_congr hG' hc'⟩
  refine ⟨hfst, ?_, ?_⟩
  · rw [snd_type_usage, snd_type_usage, hfst]
  · apply Finset.ext
    intro n
    rw [mem_issues_iff, mem_issues_iff, hc n]
    exact ⟨fun ⟨h1, h2, h3⟩ => ⟨reach_congr hG h1, h2, h3⟩,
      fun ⟨h1, h2, h3⟩ => ⟨reach_congr hG' h1, h2, h3⟩⟩

/-- Adjacency list for the C6 witness, one entry order. -/
def c6G1 : List (Name × List Name) := [("A", ["B"]), ("B", [])]

/-- The same graph with its entries in the opposite order. -/
def c6G2 : List (Name × List Name) := [("B", []), ("A", ["B"])]

/-- Category list for the C6 witness, one entry order. -/
def c6cats1 : List (Name × Cat) := [("A", Cat.type), ("B", Cat.type)]

/-- The same categories, entries in the opposite order. -/
def c6cats2 : List (Name × Cat) := [("B", Cat.type), ("A", Cat.type)]

/-- Witness for C6: two permuted presentations of the same graph produce
the same `used_snippets` set. -/
theorem C6_witness :
    (find_transitive_type_usage {"A"} c6G1 c6cats1).1 =
      (find_transitive_type_usage {"A"} c6G2 c6cats2).1 :=
  (C6_thm c6G1 c6G2 c6cats1 c6cats2 {"A"}
    (by
      intro u r
      by_cases h1 : ("A" : String) = u
      · by_cases h2 : ("B" : String) = u
        · exact absurd (h2.trans h1.symm) (by decide)
        · simp [c6G1, c6G2, depsGet, lookupKey, h1, h2]
      · by_cases h2 : ("B" : String) = u
        · simp [c6G1, c6G2, depsGet, lookupKey, h1, h2]
        · simp [c6G1, c6G2, depsGet, lookupKey, h1, h2])
    (by
      intro m
      by_cases h1 : ("A" : String) = m
      · by_cases h2 : ("B" : String) = m
        · exact absurd (h2.trans h1.symm) (by decide)
        · simp [c6cats1, c6cats2, catsGet, lookupKey, h1, h2]
      · by_cases h2 : ("B" : String) = m
        · simp [c6cats1, c6cats2, catsGet, lookupKey, h1, h2]
        · simp [c6cats1, c6cats2, catsGet, lookupKey, h1, h2])).1

/-- Transcription of the spec's classification rules (§4.1), written from
the spec's words: a string containing `"snippets"` is a snippet reference
categorized by `/fields/` then `/types/` occurring in the string itself;
otherwise a `./`- or `../`-relative string in a file whose path contains
`"snippets"` is a snippet reference categorized from the current file's own
path; anything else is ignored; the recorded name is the filename stem of
the value string. -/
def classifyRefValueSpec (filepath value : String) : Option (Name × Cat) :=
  if strContainsSub "snippets" value then
    some (pathStem value,
      if strContainsSub "/fields/" value then Cat.field
      else if strContainsSub "/types/" value then Cat.type
      else Cat.other)
  else if strContainsSub "snippets" filepath
      && (strStartsWith "./" value || strStartsWith "../" value) then
    some (pathStem value,
      if strContainsSub "/fields/" filepath then Cat.field
      else if strContainsSub "/types/" filepath then Cat.type
      else Cat.other)
  else none

/-- C7: the code's classification of a string under a reference key agrees
with the spec's rules on every input; a one-entry object carrying a
`"$ref"` string records exactly that classification (nothing for an
ignored value); and any recorded name is the filename stem of the value
string — a purely lexical computation, with no filesystem access anywhere
in these definitions. -/
theorem C7_thm (filepath value : String) :
    classifyRefValue filepath value = classifyRefValueSpec filepath value ∧
    extractRefsObj filepath
        (JsonObj.cons "$ref" (Json.strVal value) JsonObj.nil) =
      (classifyRefValue filepath value).toList ∧
    (∀ (n : Name) (c : Cat), classifyRefValue filepath value = some (n, c) →
      n = pathStem value) := by
  refine ⟨rfl, by simp [extractRefsObj, extractRefs], ?_⟩
  intro n c h
  unfold classifyRefValue at h
  split_ifs at h <;> simp_all

/-- Witness for C7, third conjunct: the name recorded for the concrete
reference string is its stem `G`. -/
theorem C7_witness : "G" = pathStem "../snippets/fields/G.json" :=
  (C7_thm "schemas/entities/thing.json" "../snippets/fields/G.json").2.2
    "G" Cat.field (by decide)

/-- C8: on the concrete input — snippets `A` (type, referencing `B`), `B`
(type), `F` (field), `G` (field), and one source schema directly
referencing `A` and `G` — the analyzer computes
`directlyUsed = {A, G}`, `allUsed = {A, B, G}`, `transitiveTypes = {B}`,
`transitiveFieldIssues = ∅`, `orphaned = {F}`. -/
theorem C8_thm :
    analyze_schemas [exA, exB, exF, exG] [exSchema] =
      ({"A", "G"}, {"A", "B", "G"}, {"B"}, ∅, {"F"}) := by
  decide

/-- C9: a snippet file whose content failed to load contributes no edges —
the `deps` map is untouched — yet its stem is still registered in the file
and category maps (category derived from the path alone), so it is counted
among `allSnippets` and lands in the orphaned set whenever it ends up
outside `allUsed`; the fold over the remaining files continues, so the
failure is non-fatal to the run. -/
theorem C9_thm (acc : GraphAcc) (p : String) :
    buildStep acc (p, none) =
      ⟨acc.deps, updateSet acc.files (pathStem p) p,
        updateSet acc.cats (pathStem p) (pathCategory p)⟩ ∧
    pathStem p ∈ snippetKeys (buildStep acc (p, none)).files ∧
    (∀ (G : List (Name × List Name)) (cats : List (Name × Cat))
        (direct : Finset Name),
      pathStem p ∉ (find_transitive_type_usage direct G cats).1 →
      pathStem p ∈ orphanedOf (buildStep acc (p, none)).files G cats direct) := by
  have hkeys : pathStem p ∈ snippetKeys (buildStep acc (p, none)).files := by
    rw [buildStep_files, snippetKeys_updateSet]
    exact Finset.mem_insert_self _ _
  refine ⟨rfl, hkeys, ?_⟩
  intro G cats direct hnot
  exact Finset.mem_sdiff.mpr ⟨hkeys, hnot⟩

/-- Witness for C9: the unreadable field snippet `F`, registered from its
path alone, appears in the orphaned set of an empty analysis. -/
theorem C9_witness :
    pathStem "schemas/snippets/fields/F.json" ∈
      orphanedOf (buildStep ⟨[], [], []⟩ ("schemas/snippets/fields/F.json", none)).files
        [] [] ∅ :=
  (C9_thm ⟨[], [], []⟩ "schemas/snippets/fields/F.json").2.2 [] [] ∅ (by decide)

/-- C10: two snippet files with the same stem collapse into one node: after
scanning both, the edge set recorded under the stem is the old one united
with the references extracted from each file, the recorded file path and
category are those of the later file, and the key set gains only the one
stem. -/
theorem C10_thm (acc : GraphAcc) (p1 : String) (c1 : Option Json)
    (p2 : String) (c2 : Option Json) (hstem : pathStem p1 = pathStem p2) :
    (∀ r : Name,
      r ∈ depsGet (buildStep (buildStep acc (p1, c1)) (p2, c2)).deps (pathStem p2) ↔
        (r ∈ depsGet acc.deps (pathStem p2) ∨
          r ∈ refNames p1 c1 ∨ r ∈ refNames p2 c2)) ∧
    lookupKey (buildStep (buildStep acc (p1, c1)) (p2, c2)).files (pathStem p2) =
      some p2 ∧
    lookupKey (buildStep (buildStep acc (p1, c1)) (p2, c2)).cats (pathStem p2) =
      some (pathCategory p2) ∧
    snippetKeys (buildStep (buildStep acc (p1, c1)) (p2, c2)).files =
      insert (pathStem p2) (snippetKeys acc.files) := by
  refine ⟨?_, ?_, ?_, ?_⟩
  · intro r
    rw [mem_depsGet_buildStep, mem_depsGet_buildStep]
    show (r ∈ depsGet acc.deps (pathStem p2) ∨
        (pathStem p2 = pathStem p1 ∧ r ∈ refNames p1 c1)) ∨
        (pathStem p2 = pathStem p2 ∧ r ∈ refNames p2 c2) ↔ _
    rw [hstem]
    tauto
  · rw [buildStep_files, lookupKey_updateSet, if_pos rfl]
  · rw [buildStep_cats, lookupKey_updateSet, if_pos rfl]
  · rw [buildStep_files, snippetKeys_updateSet, buildStep_files,
      snippetKeys_updateSet]
    show insert (pathStem p2) (insert (pathStem p1) _) = _
    rw [hstem, Finset.insert_idem]

/-- First colliding file for the C10 witness: a `types/A.json` referencing `B`. -/
def c10p1 : String := "schemas/snippets/types/A.json"

/-- Content of the first colliding file. -/
def c10c1 : Option Json :=
  some (Json.obj (JsonObj.cons "$ref" (Json.strVal "./B.json") JsonObj.nil))

/-- Second colliding file, same stem `A` under `fields/`, referencing `C`. -/
def c10p2 : String := "schemas/snippets/fields/A.json"

/-- Content of the second colliding file. -/
def c10c2 : Option Json :=
  some (Json.obj (JsonObj.cons "$ref" (Json.strVal "./C.json") JsonObj.nil))

/-- Witness for C10: after scanning both colliding files, the reference `B`
extracted from the *first* file is still an edge of the merged node `A`. -/
theorem C10_witness :
    "B" ∈ depsGet
      (buildStep (buildStep ⟨[], [], []⟩ (c10p1, c10c1)) (c10p2, c10c2)).deps
      (pathStem c10p2) :=
  ((C10_thm ⟨[], [], []⟩ c10p1 c10c1 c10p2 c10c2 (by decide)).1 "B").mpr
    (Or.inr (Or.inl (by decide)))

end SnippetAnalysis
